import Mathlib

/-!
Verification of the external scanner in
`src/tree-sitter-ipynb/src/scanner.c` (the Line/Marker Scanner).

The scanner reads characters from a host-supplied lexer cursor.  We embed
the cursor as the list of characters remaining in front of it together
with the absolute position reached so far; `lookahead` is the code of the
character under the cursor, with the sentinel value `0` denoting
end-of-input (exactly as the C code tests `lexer->lookahead != 0`, so a
NUL character in the input is indistinguishable from end-of-input, as in
the source).
-/

/-- The two token kinds of `enum TokenType` in `scanner.c`. -/
inductive TokenType
  | CONTENT_LINE
  | CELL_END
deriving DecidableEq, Repr

/-- The host lexer state visible to the scanner: the characters still in
front of the cursor, the absolute cursor position, the position recorded
by `mark_end` (if any), and the `result_symbol` field. -/
structure TSLexer where
  rest : List Char
  pos : Nat
  marked_end : Option Nat
  result_symbol : Option TokenType
deriving DecidableEq, Repr

/-- `lexer->lookahead`: the code of the character under the cursor,
`0` at end-of-input. -/
def TSLexer.lookahead : TSLexer → Nat
  | ⟨[], _, _, _⟩ => 0
  | ⟨c :: _, _, _, _⟩ => c.toNat

/-- `advance(lexer)` (always called with `skip = false` in the source):
move the cursor one character forward. -/
def advance (l : TSLexer) : TSLexer :=
  { l with rest := l.rest.tail, pos := l.pos + 1 }

/-- `lexer->mark_end(lexer)`: record the current cursor position. -/
def mark_end (l : TSLexer) : TSLexer :=
  { l with marked_end := some l.pos }

/-- The fixed marker literal of `check_end_marker`:
`const char *marker = "# <</ipynb_nvim>>";`. -/
def marker : List Char := "# <</ipynb_nvim>>".toList

/-- The loop of `check_end_marker`: compare the input, character by
character, against the remaining characters of the marker literal,
advancing past each matched character; stop with `false` at the first
mismatch.  (The C loop runs while `marker[i] != 0`, i.e. over exactly the
characters of the literal.) -/
def check_end_marker_loop : List Char → TSLexer → Bool × TSLexer
  | [], l => (true, l)
  | c :: m, l =>
    if l.lookahead = c.toNat then check_end_marker_loop m (advance l)
    else (false, l)

/-- `check_end_marker(lexer)`: match the full marker literal at the
cursor. -/
def check_end_marker (l : TSLexer) : Bool × TSLexer :=
  check_end_marker_loop marker l

/-- The body of the `while (lexer->lookahead != '\n' && lexer->lookahead != 0)`
loop, as a function of the characters in front of the cursor: the number
of characters consumed and the characters left. -/
def consume_to_eol : List Char → Nat × List Char
  | [] => (0, [])
  | c :: t =>
    if c.toNat ≠ '\n'.toNat ∧ c.toNat ≠ 0 then
      let p := consume_to_eol t
      (p.1 + 1, p.2)
    else (0, c :: t)

/-- The `while` loop of the content-line branch: advance the cursor until
the lookahead is a newline or `0`. -/
def consume_line (l : TSLexer) : TSLexer :=
  { l with
    rest := (consume_to_eol l.rest).2,
    pos := l.pos + (consume_to_eol l.rest).1 }

/-- The tail of the content-line branch (`scanner.c` lines 67–83): consume
until newline or end-of-input; on a newline, consume it and emit
`CONTENT_LINE`; at end-of-input emit `CONTENT_LINE` without it; otherwise
fall through to `return false` (unreachable, kept for faithfulness). -/
def scan_content_tail (l : TSLexer) : Bool × TSLexer :=
  let l2 := consume_line l
  if l2.lookahead = '\n'.toNat then
    (true, { advance l2 with result_symbol := some TokenType.CONTENT_LINE })
  else if l2.lookahead = 0 then
    (true, { l2 with result_symbol := some TokenType.CONTENT_LINE })
  else
    (false, l2)

/-- The `valid_symbols[CONTENT_LINE]` block (`scanner.c` lines 56–84):
if the lookahead is `#`, mark the end and check for the marker; a full
match means this is a marker line, `return false`; otherwise consume the
line as content. -/
def scan_content (valid_content : Bool) (l : TSLexer) : Bool × TSLexer :=
  if valid_content then
    if l.lookahead = '#'.toNat then
      match check_end_marker (mark_end l) with
      | (true, l1) => (false, l1)
      | (false, l1) => scan_content_tail l1
    else scan_content_tail l
  else (false, l)

/-- `const bool *valid_symbols`, as a flag per token kind. -/
structure ValidSymbols where
  content_line : Bool
  cell_end : Bool
deriving DecidableEq, Repr

/-- `tree_sitter_ipynb_external_scanner_scan`: first, if `CELL_END` is
valid and the lookahead is `#`, try the end marker, consuming an optional
trailing newline and emitting `CELL_END` on success; on a mismatch fall
through (with the cursor already advanced through the matched characters)
to the content-line block. -/
def tree_sitter_ipynb_external_scanner_scan
    (valid_symbols : ValidSymbols) (lexer : TSLexer) : Bool × TSLexer :=
  if valid_symbols.cell_end ∧ lexer.lookahead = '#'.toNat then
    match check_end_marker lexer with
    | (true, l1) =>
      if l1.lookahead = '\n'.toNat then
        (true, { advance l1 with result_symbol := some TokenType.CELL_END })
      else
        (true, { l1 with result_symbol := some TokenType.CELL_END })
    | (false, l1) => scan_content valid_symbols.content_line l1
  else scan_content valid_symbols.content_line lexer

/-- A fresh cursor over an input string, as the host presents it. -/
def init_lexer (s : List Char) : TSLexer :=
  ⟨s, 0, none, none⟩

/-- Request set containing only `ContentLine`. -/
def content_only : ValidSymbols := ⟨true, false⟩

/-- Request set containing only `CellEnd`. -/
def cell_end_only : ValidSymbols := ⟨false, true⟩

/-- Modelled from the spec: the host-side token extent.  The host lexer
implementation (`tree_sitter/parser.h` machinery) is not part of `src/`;
per the spec's data model, on success "the cursor has been advanced to
the end of that token's span", so the token recognized by a scan that
started at `l0` and finished at `l1` covers the characters the cursor
moved past. -/
def consumed_span (l0 l1 : TSLexer) : List Char :=
  l0.rest.take (l1.pos - l0.pos)

/-! ## Helper lemmas -/

theorem char_toNat_inj {c d : Char} (h : c.toNat = d.toNat) : c = d :=
  Char.ext (UInt32.ext h)

theorem lookahead_nil {l : TSLexer} (h : l.rest = []) : l.lookahead = 0 := by
  cases l; simp_all [TSLexer.lookahead]

theorem lookahead_cons {l : TSLexer} {c : Char} {t : List Char}
    (h : l.rest = c :: t) : l.lookahead = c.toNat := by
  cases l; simp_all [TSLexer.lookahead]

theorem advance_rest {l : TSLexer} : (advance l).rest = l.rest.tail := rfl

/-- The marker-check loop succeeds exactly when the characters in front of
the cursor begin with the remaining marker characters (all of which are
nonzero, so the end-of-input sentinel can never match). -/
theorem check_end_marker_loop_true_iff (m : List Char) (hm : ∀ c ∈ m, c.toNat ≠ 0) :
    ∀ l : TSLexer, (check_end_marker_loop m l).1 = true ↔ l.rest.take m.length = m := by
  induction m with
  | nil => intro l; simp [check_end_marker_loop]
  | cons c m ih =>
    intro l
    have hc : c.toNat ≠ 0 := hm c (List.mem_cons_self c m)
    have hm' : ∀ d ∈ m, d.toNat ≠ 0 := fun d hd => hm d (List.mem_cons_of_mem c hd)
    cases hrest : l.rest with
    | nil =>
      have hla : l.lookahead = 0 := lookahead_nil hrest
      simp [check_end_marker_loop, hla, hrest, Ne.symm hc]
    | cons d t =>
      have hla : l.lookahead = d.toNat := lookahead_cons hrest
      by_cases hdc : d.toNat = c.toNat
      · have hd : d = c := char_toNat_inj hdc
        subst hd
        have hadv : (advance l).rest = t := by rw [advance_rest, hrest]; rfl
        have hstep : check_end_marker_loop (d :: m) l = check_end_marker_loop m (advance l) := by
          simp [check_end_marker_loop, hla]
        rw [hstep, ih hm' (advance l), hadv]
        simp
      · have hne : ¬ d = c := fun h => hdc (congrArg Char.toNat h)
        simp [check_end_marker_loop, hla, hdc, hrest, hne]

/-- The marker-check loop only ever advances the cursor: the lexer it
returns is the input lexer with some `k ≤ min (length of the remaining
marker) (length of the remaining input)` characters consumed. -/
theorem check_end_marker_loop_state (m : List Char) (hm : ∀ c ∈ m, c.toNat ≠ 0) :
    ∀ l : TSLexer, ∃ k, k ≤ m.length ∧ k ≤ l.rest.length ∧
      (check_end_marker_loop m l).2 =
        { l with rest := l.rest.drop k, pos := l.pos + k } := by
  induction m with
  | nil =>
    intro l
    exact ⟨0, Nat.le_refl 0, Nat.zero_le _, by simp [check_end_marker_loop]⟩
  | cons c m ih =>
    intro l
    have hc : c.toNat ≠ 0 := hm c (List.mem_cons_self c m)
    have hm' : ∀ d ∈ m, d.toNat ≠ 0 := fun d hd => hm d (List.mem_cons_of_mem c hd)
    by_cases h : l.lookahead = c.toNat
    · cases hrest : l.rest with
      | nil => exact absurd (lookahead_nil hrest ▸ h).symm hc
      | cons d t =>
        obtain ⟨k, hk1, hk2, hk3⟩ := ih hm' (advance l)
        have hadv : (advance l).rest = t := by rw [advance_rest, hrest]; rfl
        rw [hadv] at hk2 hk3
        have hstep : check_end_marker_loop (c :: m) l = check_end_marker_loop m (advance l) := by
          simp [check_end_marker_loop, h]
        refine ⟨k + 1, Nat.succ_le_succ hk1, Nat.succ_le_succ hk2, ?_⟩
        rw [hstep, hk3]
        have hpos : (advance l).pos = l.pos + 1 := rfl
        have hme : (advance l).marked_end = l.marked_end := rfl
        have hrs : (advance l).result_symbol = l.result_symbol := rfl
        rw [hpos, hme, hrs, List.drop_succ_cons]
        congr 1
        omega
    · exact ⟨0, Nat.zero_le _, Nat.zero_le _, by simp [check_end_marker_loop, h]⟩

/-- Every character of the marker literal is nonzero. -/
theorem marker_chars_ne_zero : ∀ c ∈ marker, c.toNat ≠ 0 := by decide

/-- `check_end_marker` succeeds iff the input in front of the cursor
begins byte-for-byte with the marker literal. -/
theorem check_end_marker_true_iff (l : TSLexer) :
    (check_end_marker l).1 = true ↔ l.rest.take marker.length = marker :=
  check_end_marker_loop_true_iff marker marker_chars_ne_zero l

theorem newline_toNat : '\n'.toNat = 10 := rfl

theorem hash_toNat : '#'.toNat = 35 := rfl

theorem consume_to_eol_cons_true {c : Char} (t : List Char)
    (h1 : c.toNat ≠ '\n'.toNat) (h2 : c.toNat ≠ 0) :
    consume_to_eol (c :: t) = ((consume_to_eol t).1 + 1, (consume_to_eol t).2) := by
  have h1' : c.toNat ≠ 10 := by rw [newline_toNat] at h1; exact h1
  simp [consume_to_eol, h1', h2]

theorem consume_to_eol_cons_false {c : Char} (t : List Char)
    (h : c.toNat = '\n'.toNat ∨ c.toNat = 0) :
    consume_to_eol (c :: t) = (0, c :: t) := by
  rcases h with h | h <;> simp [consume_to_eol, h]

/-- The content-consuming loop splits the input: the count of consumed
characters plus the characters left equals the whole. -/
theorem consume_to_eol_length (t : List Char) :
    (consume_to_eol t).1 + (consume_to_eol t).2.length = t.length := by
  induction t with
  | nil => rfl
  | cons c t ih =>
    by_cases h1 : c.toNat = '\n'.toNat
    · rw [consume_to_eol_cons_false t (Or.inl h1)]; simp
    · by_cases h2 : c.toNat = 0
      · rw [consume_to_eol_cons_false t (Or.inr h2)]; simp
      · rw [consume_to_eol_cons_true t h1 h2]
        simp only [List.length_cons]
        omega

/-- The content-consuming loop stops exactly at a newline or a NUL (or at
the end of the input). -/
theorem consume_to_eol_stop (t : List Char) :
    (consume_to_eol t).2 = [] ∨
      ∃ c t', (consume_to_eol t).2 = c :: t' ∧ (c.toNat = '\n'.toNat ∨ c.toNat = 0) := by
  induction t with
  | nil => exact Or.inl rfl
  | cons c t ih =>
    by_cases h1 : c.toNat = '\n'.toNat
    · exact Or.inr ⟨c, t, by rw [consume_to_eol_cons_false t (Or.inl h1)], Or.inl h1⟩
    · by_cases h2 : c.toNat = 0
      · exact Or.inr ⟨c, t, by rw [consume_to_eol_cons_false t (Or.inr h2)], Or.inr h2⟩
      · rw [consume_to_eol_cons_true t h1 h2]
        exact ih

/-- A run of characters free of newlines and NULs is consumed whole. -/
theorem consume_to_eol_all (t : List Char)
    (h : ∀ c ∈ t, c.toNat ≠ '\n'.toNat ∧ c.toNat ≠ 0) :
    consume_to_eol t = (t.length, []) := by
  induction t with
  | nil => rfl
  | cons c t ih =>
    have hc := h c (List.mem_cons_self c t)
    rw [consume_to_eol_cons_true t hc.1 hc.2,
      ih (fun d hd => h d (List.mem_cons_of_mem c hd))]
    simp

/-- The marker literal starts with `#`. -/
theorem marker_head : marker = '#' :: " <</ipynb_nvim>>".toList := by decide

/-- If the input begins with the marker literal, the initial lookahead is
the code of `#`. -/
theorem lookahead_of_marker_take {s : List Char} (h : s.take marker.length = marker) :
    (init_lexer s).lookahead = '#'.toNat := by
  cases s with
  | nil =>
    rw [List.take_nil, marker_head] at h
    exact absurd h (by simp)
  | cons d t =>
    rw [marker_head, List.length_cons, List.take_succ_cons] at h
    injection h with h1 h2
    rw [lookahead_cons rfl, h1]

/-- The content-line tail always succeeds and emits `CONTENT_LINE`:
after the consume loop the lookahead is a newline or the sentinel, so the
dead `return false` at the end of the scanner is never reached. -/
theorem scan_content_tail_true (l : TSLexer) :
    (scan_content_tail l).1 = true ∧
      (scan_content_tail l).2.result_symbol = some TokenType.CONTENT_LINE := by
  rcases consume_to_eol_stop l.rest with h | ⟨c, t', h, hc⟩
  · have hla : (consume_line l).lookahead = 0 := lookahead_nil (by simp [consume_line, h])
    simp [scan_content_tail, hla, newline_toNat]
  · have hr : (consume_line l).rest = c :: t' := by simp [consume_line, h]
    have hla : (consume_line l).lookahead = c.toNat := lookahead_cons hr
    rcases hc with hc | hc
    · simp [scan_content_tail, hla, hc]
    · simp [scan_content_tail, hla, hc, newline_toNat]

/-- When the characters in front of the cursor contain no newline and no
NUL, the content-line tail consumes all of them and succeeds at
end-of-input. -/
theorem scan_content_tail_all (l : TSLexer)
    (h : ∀ c ∈ l.rest, c.toNat ≠ '\n'.toNat ∧ c.toNat ≠ 0) :
    scan_content_tail l =
      (true, { l with
        rest := [],
        pos := l.pos + l.rest.length,
        result_symbol := some TokenType.CONTENT_LINE }) := by
  have hc := consume_to_eol_all l.rest h
  have hl2 : consume_line l = { l with rest := [], pos := l.pos + l.rest.length } := by
    simp [consume_line, hc]
  simp [scan_content_tail, hl2, TSLexer.lookahead, newline_toNat]

/-- When only `CONTENT_LINE` is valid, the scanner goes straight to the
content-line block. -/
theorem scan_content_only (l : TSLexer) :
    tree_sitter_ipynb_external_scanner_scan content_only l = scan_content true l := by
  simp [tree_sitter_ipynb_external_scanner_scan, content_only]

/-- On an input that does not begin with the marker and contains neither
newline nor NUL, the content-line block consumes the whole input and
emits `CONTENT_LINE` at end-of-input. -/
theorem scan_content_no_newline (s : List Char)
    (hmk : ¬ s.take marker.length = marker)
    (hchars : ∀ c ∈ s, c.toNat ≠ '\n'.toNat ∧ c.toNat ≠ 0) :
    ∃ me, scan_content true (init_lexer s) =
      (true, ⟨[], s.length, me, some TokenType.CONTENT_LINE⟩) := by
  by_cases hhash : (init_lexer s).lookahead = '#'.toNat
  · rcases hck : check_end_marker (mark_end (init_lexer s)) with ⟨b, l1⟩
    have hb : b = false := by
      cases b with
      | false => rfl
      | true =>
        exact absurd ((check_end_marker_true_iff (mark_end (init_lexer s))).mp
          (by rw [hck])) hmk
    subst hb
    obtain ⟨k, hk1, hk2, hk3⟩ :=
      check_end_marker_loop_state marker marker_chars_ne_zero (mark_end (init_lexer s))
    have hl1 : l1 = ⟨s.drop k, k, some 0, none⟩ := by
      have h2 : (check_end_marker (mark_end (init_lexer s))).2 = l1 := by rw [hck]
      rw [check_end_marker] at h2
      rw [hk3] at h2
      rw [← h2]
      simp [mark_end, init_lexer]
    subst hl1
    have hsub : ∀ c ∈ (⟨s.drop k, k, some 0, none⟩ : TSLexer).rest,
        c.toNat ≠ '\n'.toNat ∧ c.toNat ≠ 0 := by
      intro c hcm
      exact hchars c (List.drop_subset k s hcm)
    have hkle : k ≤ s.length := by
      simpa [mark_end, init_lexer] using hk2
    refine ⟨some 0, ?_⟩
    have hstep : scan_content true (init_lexer s) =
        scan_content_tail (⟨s.drop k, k, some 0, none⟩ : TSLexer) := by
      simp [scan_content, hhash, hck]
    rw [hstep, scan_content_tail_all _ hsub]
    have hpos : k + (List.drop k s).length = s.length := by
      rw [List.length_drop]; omega
    simp [hpos]
    omega
  · have hsub : ∀ c ∈ (init_lexer s).rest, c.toNat ≠ '\n'.toNat ∧ c.toNat ≠ 0 := hchars
    refine ⟨none, ?_⟩
    have hhash' : ¬ (init_lexer s).lookahead = 35 :=
      fun h => hhash (by rw [hash_toNat]; exact h)
    have hstep : scan_content true (init_lexer s) = scan_content_tail (init_lexer s) := by
      simp [scan_content, hhash']
    rw [hstep, scan_content_tail_all _ hsub]
    simp [init_lexer]

theorem consume_line_pos (l : TSLexer) :
    (consume_line l).pos = l.pos + (consume_to_eol l.rest).1 := rfl

theorem consume_line_rest (l : TSLexer) :
    (consume_line l).rest = (consume_to_eol l.rest).2 := rfl

/-- The content-line tail moves the cursor forward by at most the number
of characters in front of it. -/
theorem scan_content_tail_bound (l : TSLexer) :
    l.pos ≤ (scan_content_tail l).2.pos ∧
      (scan_content_tail l).2.pos ≤ l.pos + l.rest.length := by
  have hlen := consume_to_eol_length l.rest
  rcases consume_to_eol_stop l.rest with h | ⟨c, t', h, hc⟩
  · have hla : (consume_line l).lookahead = 0 := lookahead_nil ((consume_line_rest l).trans h)
    simp [scan_content_tail, hla, newline_toNat, consume_line_pos]
    omega
  · have hr : (consume_line l).rest = c :: t' := (consume_line_rest l).trans h
    have hla : (consume_line l).lookahead = c.toNat := lookahead_cons hr
    rw [h] at hlen
    simp only [List.length_cons] at hlen
    rcases hc with hc | hc
    · have h10 : (consume_line l).lookahead = '\n'.toNat := by rw [hla, hc]
      simp [scan_content_tail, h10, advance, consume_line_pos]
      omega
    · have h0 : (consume_line l).lookahead = 0 := by rw [hla, hc]
      simp [scan_content_tail, h0, newline_toNat, consume_line_pos]
      omega

/-- The content-line block moves the cursor forward by at most the number
of characters in front of it. -/
theorem scan_content_bound (vc : Bool) (l : TSLexer) :
    l.pos ≤ (scan_content vc l).2.pos ∧
      (scan_content vc l).2.pos ≤ l.pos + l.rest.length := by
  cases vc with
  | false => simp [scan_content]
  | true =>
    by_cases hhash : l.lookahead = '#'.toNat
    · obtain ⟨k, hk1, hk2, hk3⟩ :=
        check_end_marker_loop_state marker marker_chars_ne_zero (mark_end l)
      rcases hck : check_end_marker (mark_end l) with ⟨b, l1⟩
      have hk2' : k ≤ l.rest.length := hk2
      have hl1 : l1 = ⟨l.rest.drop k, l.pos + k, some l.pos, l.result_symbol⟩ := by
        have h2 : (check_end_marker (mark_end l)).2 = l1 := by rw [hck]
        rw [check_end_marker, hk3] at h2
        rw [← h2]
        rfl
      subst hl1
      cases b with
      | true =>
        have hstep : scan_content true l =
            (false, ⟨l.rest.drop k, l.pos + k, some l.pos, l.result_symbol⟩) := by
          simp [scan_content, hhash, hck]
        rw [hstep]
        refine ⟨by simp, ?_⟩
        simp
        omega
      | false =>
        have hstep : scan_content true l =
            scan_content_tail ⟨l.rest.drop k, l.pos + k, some l.pos, l.result_symbol⟩ := by
          simp [scan_content, hhash, hck]
        rw [hstep]
        have hb := scan_content_tail_bound
          (⟨l.rest.drop k, l.pos + k, some l.pos, l.result_symbol⟩ : TSLexer)
        simp only [List.length_drop] at hb
        omega
    · have hhash' : ¬ l.lookahead = 35 := fun h => hhash (by rw [hash_toNat]; exact h)
      have hstep : scan_content true l = scan_content_tail l := by
        simp [scan_content, hhash']
      rw [hstep]
      exact scan_content_tail_bound l

/-! ## Claims -/

/-- C1: with only `CellEnd` requested, the scan succeeds with kind
`CELL_END` exactly when the input begins byte-for-byte with the marker
literal; any divergence makes it fail, e.g. on `# <</ipynb_nvi>>` and
`## <</ipynb_nvim>>`. -/
theorem c1_marker_exactness :
    (∀ s : List Char,
      ((tree_sitter_ipynb_external_scanner_scan cell_end_only (init_lexer s)).1 = true ∧
        (tree_sitter_ipynb_external_scanner_scan cell_end_only (init_lexer s)).2.result_symbol =
          some TokenType.CELL_END) ↔ s.take marker.length = marker) ∧
    (tree_sitter_ipynb_external_scanner_scan cell_end_only
      (init_lexer ("# <</ipynb_nvi>>".toList))).1 = false ∧
    (tree_sitter_ipynb_external_scanner_scan cell_end_only
      (init_lexer ("## <</ipynb_nvim>>".toList))).1 = false := by
  refine ⟨?_, by decide, by decide⟩
  intro s
  constructor
  · intro hs
    by_cases hhash : (init_lexer s).lookahead = '#'.toNat
    · rcases hck : check_end_marker (init_lexer s) with ⟨b, l1⟩
      cases b with
      | false =>
        exfalso
        have heq : tree_sitter_ipynb_external_scanner_scan cell_end_only (init_lexer s) =
            (false, l1) := by
          simp [tree_sitter_ipynb_external_scanner_scan, cell_end_only, hhash, hck, scan_content]
        rw [heq] at hs
        exact absurd hs.1 (by simp)
      | true =>
        exact (check_end_marker_true_iff (init_lexer s)).mp (by rw [hck])
    · exfalso
      have hhash' : ¬ (init_lexer s).lookahead = 35 :=
        fun h => hhash (by rw [hash_toNat]; exact h)
      have heq : tree_sitter_ipynb_external_scanner_scan cell_end_only (init_lexer s) =
          (false, init_lexer s) := by
        simp [tree_sitter_ipynb_external_scanner_scan, cell_end_only, hhash', scan_content]
      rw [heq] at hs
      exact absurd hs.1 (by simp)
  · intro hs
    have hhash := lookahead_of_marker_take hs
    have hck0 : (check_end_marker (init_lexer s)).1 = true :=
      (check_end_marker_true_iff (init_lexer s)).mpr hs
    rcases hck : check_end_marker (init_lexer s) with ⟨b, l1⟩
    rw [hck] at hck0
    cases b with
    | false => exact absurd hck0 (by simp)
    | true =>
      by_cases hnl : l1.lookahead = '\n'.toNat
      · have heq : tree_sitter_ipynb_external_scanner_scan cell_end_only (init_lexer s) =
            (true, { advance l1 with result_symbol := some TokenType.CELL_END }) := by
          simp [tree_sitter_ipynb_external_scanner_scan, cell_end_only, hhash, hck, hnl]
        rw [heq]
        exact ⟨rfl, rfl⟩
      · have hnl' : ¬ l1.lookahead = 10 :=
          fun h => hnl (by rw [newline_toNat]; exact h)
        have heq : tree_sitter_ipynb_external_scanner_scan cell_end_only (init_lexer s) =
            (true, { l1 with result_symbol := some TokenType.CELL_END }) := by
          simp [tree_sitter_ipynb_external_scanner_scan, cell_end_only, hhash, hck, hnl']
        rw [heq]
        exact ⟨rfl, rfl⟩

/-- C2: with only `ContentLine` requested, `# not a marker\n` succeeds as
a `CONTENT_LINE` consuming the whole line including its newline, while
the exact marker line fails; in general the scan fails exactly when the
input begins byte-for-byte with the marker literal. -/
theorem c2_content_vs_marker_disambiguation :
    ((tree_sitter_ipynb_external_scanner_scan content_only
        (init_lexer ("# not a marker\n".toList))).1 = true ∧
      (tree_sitter_ipynb_external_scanner_scan content_only
        (init_lexer ("# not a marker\n".toList))).2.result_symbol =
          some TokenType.CONTENT_LINE ∧
      consumed_span (init_lexer ("# not a marker\n".toList))
        (tree_sitter_ipynb_external_scanner_scan content_only
          (init_lexer ("# not a marker\n".toList))).2 = "# not a marker\n".toList) ∧
    (tree_sitter_ipynb_external_scanner_scan content_only
      (init_lexer ("# <</ipynb_nvim>>\n".toList))).1 = false ∧
    (∀ s : List Char,
      (tree_sitter_ipynb_external_scanner_scan content_only (init_lexer s)).1 = false ↔
        s.take marker.length = marker) := by
  refine ⟨by decide, by decide, ?_⟩
  intro s
  rw [scan_content_only]
  by_cases hhash : (init_lexer s).lookahead = '#'.toNat
  · rcases hck : check_end_marker (mark_end (init_lexer s)) with ⟨b, l1⟩
    have hiff := check_end_marker_true_iff (mark_end (init_lexer s))
    rw [hck] at hiff
    have hrs : (mark_end (init_lexer s)).rest = s := rfl
    rw [hrs] at hiff
    cases b with
    | true =>
      have hstep : scan_content true (init_lexer s) = (false, l1) := by
        simp [scan_content, hhash, hck]
      rw [hstep]
      simpa using hiff
    | false =>
      have hstep : scan_content true (init_lexer s) = scan_content_tail l1 := by
        simp [scan_content, hhash, hck]
      rw [hstep]
      rw [(scan_content_tail_true l1).1]
      simpa using hiff
  · have hhash' : ¬ (init_lexer s).lookahead = 35 :=
      fun h => hhash (by rw [hash_toNat]; exact h)
    have hstep : scan_content true (init_lexer s) = scan_content_tail (init_lexer s) := by
      simp [scan_content, hhash']
    rw [hstep]
    rw [(scan_content_tail_true (init_lexer s)).1]
    simp
    intro hmk
    exact hhash (lookahead_of_marker_take hmk)

/-- C3 (counterexample): the marker literal the scanner compares against
is not 18 characters long. -/
theorem c3_marker_not_eighteen : ¬ marker.length = 18 := by decide

/-- C3 (amended): the marker literal the scanner compares against is
exactly 17 characters long. -/
theorem c3_marker_length_seventeen : marker.length = 17 := by decide

/-- C4: with only `CellEnd` requested, both the marker line with a
trailing newline and the marker immediately followed by end-of-input
yield `CELL_END`; the newline is consumed when present (final position
18) and is not required (final position 17 at end-of-input). -/
theorem c4_trailing_newline_optional :
    tree_sitter_ipynb_external_scanner_scan cell_end_only
        (init_lexer ("# <</ipynb_nvim>>\n".toList)) =
      (true, ⟨[], 18, none, some TokenType.CELL_END⟩) ∧
    tree_sitter_ipynb_external_scanner_scan cell_end_only
        (init_lexer ("# <</ipynb_nvim>>".toList)) =
      (true, ⟨[], 17, none, some TokenType.CELL_END⟩) := by decide

/-- C5: with `ContentLine` requested, reaching end-of-input before any
newline still emits a `CONTENT_LINE` covering the consumed characters
(the whole input); in particular a scan at immediate end-of-input
returns an empty-content `CONTENT_LINE` token instead of failing. -/
theorem c5_eof_yields_content_line :
    (∀ s : List Char, ¬ s.take marker.length = marker →
      (∀ c ∈ s, c.toNat ≠ '\n'.toNat ∧ c.toNat ≠ 0) →
      (tree_sitter_ipynb_external_scanner_scan content_only (init_lexer s)).1 = true ∧
      (tree_sitter_ipynb_external_scanner_scan content_only (init_lexer s)).2.result_symbol =
        some TokenType.CONTENT_LINE ∧
      (tree_sitter_ipynb_external_scanner_scan content_only (init_lexer s)).2.pos = s.length ∧
      (tree_sitter_ipynb_external_scanner_scan content_only (init_lexer s)).2.rest = []) ∧
    (∀ v : ValidSymbols, v.content_line = true →
      tree_sitter_ipynb_external_scanner_scan v (init_lexer []) =
        (true, ⟨[], 0, none, some TokenType.CONTENT_LINE⟩)) := by
  constructor
  · intro s hmk hchars
    obtain ⟨me, hme⟩ := scan_content_no_newline s hmk hchars
    rw [scan_content_only, hme]
    exact ⟨rfl, rfl, rfl, rfl⟩
  · rintro ⟨cl, ce⟩ hv
    cases cl with
    | false => exact Bool.noConfusion hv
    | true =>
      cases ce with
      | false => decide
      | true => decide

/-- Witness for C5 at the concrete inputs `abc` and the empty input. -/
theorem c5_witness :
    ((tree_sitter_ipynb_external_scanner_scan content_only
        (init_lexer ("abc".toList))).1 = true ∧
      (tree_sitter_ipynb_external_scanner_scan content_only
        (init_lexer ("abc".toList))).2.result_symbol = some TokenType.CONTENT_LINE ∧
      (tree_sitter_ipynb_external_scanner_scan content_only
        (init_lexer ("abc".toList))).2.pos = ("abc".toList).length ∧
      (tree_sitter_ipynb_external_scanner_scan content_only
        (init_lexer ("abc".toList))).2.rest = []) ∧
    tree_sitter_ipynb_external_scanner_scan content_only (init_lexer []) =
      (true, ⟨[], 0, none, some TokenType.CONTENT_LINE⟩) :=
  ⟨c5_eof_yields_content_line.1 ("abc".toList) (by decide) (by decide),
   c5_eof_yields_content_line.2 content_only rfl⟩

/-- C6: with only `ContentLine` requested, the unterminated input `abc`
yields a `CONTENT_LINE` spanning exactly the three characters `abc`. -/
theorem c6_unterminated_final_line :
    tree_sitter_ipynb_external_scanner_scan content_only (init_lexer ("abc".toList)) =
      (true, ⟨[], 3, none, some TokenType.CONTENT_LINE⟩) ∧
    consumed_span (init_lexer ("abc".toList))
      (tree_sitter_ipynb_external_scanner_scan content_only (init_lexer ("abc".toList))).2 =
      "abc".toList := by decide

/-- C7: with only `ContentLine` requested, a lone newline yields a
`CONTENT_LINE` spanning exactly that one newline character. -/
theorem c7_lone_newline_content_line :
    tree_sitter_ipynb_external_scanner_scan content_only (init_lexer ("\n".toList)) =
      (true, ⟨[], 1, none, some TokenType.CONTENT_LINE⟩) ∧
    consumed_span (init_lexer ("\n".toList))
      (tree_sitter_ipynb_external_scanner_scan content_only (init_lexer ("\n".toList))).2 =
      "\n".toList := by decide

/-- C8: if the request set contains neither `CONTENT_LINE` nor
`CELL_END`, the scan fails and leaves the lexer — in particular the
cursor position — completely unchanged, for every input. -/
theorem c8_request_set_discipline (v : ValidSymbols) (l : TSLexer)
    (h1 : v.content_line = false) (h2 : v.cell_end = false) :
    tree_sitter_ipynb_external_scanner_scan v l = (false, l) := by
  simp [tree_sitter_ipynb_external_scanner_scan, h2, scan_content, h1]

/-- Witness for C8 at the empty request set over the input `abc`. -/
theorem c8_witness :
    tree_sitter_ipynb_external_scanner_scan ⟨false, false⟩ (init_lexer ("abc".toList)) =
      (false, init_lexer ("abc".toList)) :=
  c8_request_set_discipline ⟨false, false⟩ (init_lexer ("abc".toList)) rfl rfl

/-- C9: every scan terminates — the embedding is a total, structurally
recursive function — and each call is bounded by a single pass over the
remaining input: the cursor only moves forward and by at most the number
of characters left, for every request set and every starting state. -/
theorem c9_scan_terminates_bounded (v : ValidSymbols) (l : TSLexer) :
    l.pos ≤ (tree_sitter_ipynb_external_scanner_scan v l).2.pos ∧
      (tree_sitter_ipynb_external_scanner_scan v l).2.pos ≤ l.pos + l.rest.length := by
  by_cases hcond : v.cell_end = true ∧ l.lookahead = '#'.toNat
  · obtain ⟨hce, hhash⟩ := hcond
    obtain ⟨k, hk1, hk2, hk3⟩ := check_end_marker_loop_state marker marker_chars_ne_zero l
    have hk2' : k ≤ l.rest.length := hk2
    rcases hck : check_end_marker l with ⟨b, l1⟩
    have hl1 : l1 = ⟨l.rest.drop k, l.pos + k, l.marked_end, l.result_symbol⟩ := by
      have h2 : (check_end_marker l).2 = l1 := by rw [hck]
      rw [check_end_marker, hk3] at h2
      rw [← h2]
    subst hl1
    cases b with
    | true =>
      by_cases hnl :
          (⟨l.rest.drop k, l.pos + k, l.marked_end, l.result_symbol⟩ : TSLexer).lookahead =
            '\n'.toNat
      · have hne : l.rest.drop k ≠ [] := by
          intro h0
          have hz :=
            lookahead_nil (l := ⟨l.rest.drop k, l.pos + k, l.marked_end, l.result_symbol⟩) h0
          rw [hz] at hnl
          exact absurd hnl (by decide)
        have hlt : k < l.rest.length := by
          rcases Nat.lt_or_ge k l.rest.length with h | h
          · exact h
          · exact absurd (List.drop_eq_nil_of_le h) hne
        have hstep : tree_sitter_ipynb_external_scanner_scan v l =
            (true, { advance (⟨l.rest.drop k, l.pos + k, l.marked_end,
              l.result_symbol⟩ : TSLexer) with result_symbol := some TokenType.CELL_END }) := by
          simp [tree_sitter_ipynb_external_scanner_scan, hce, hhash, hck, hnl]
        rw [hstep]
        refine ⟨?_, ?_⟩
        · simp [advance]
          omega
        · simp [advance]
          omega
      · have hnl' :
            ¬ (⟨l.rest.drop k, l.pos + k, l.marked_end, l.result_symbol⟩ : TSLexer).lookahead =
              10 := fun h => hnl (by rw [newline_toNat]; exact h)
        have hstep : tree_sitter_ipynb_external_scanner_scan v l =
            (true, { (⟨l.rest.drop k, l.pos + k, l.marked_end,
              l.result_symbol⟩ : TSLexer) with result_symbol := some TokenType.CELL_END }) := by
          simp [tree_sitter_ipynb_external_scanner_scan, hce, hhash, hck, hnl']
        rw [hstep]
        refine ⟨?_, ?_⟩
        · simp
        · simp
          omega
    | false =>
      have hstep : tree_sitter_ipynb_external_scanner_scan v l =
          scan_content v.content_line
            ⟨l.rest.drop k, l.pos + k, l.marked_end, l.result_symbol⟩ := by
        simp [tree_sitter_ipynb_external_scanner_scan, hce, hhash, hck]
      rw [hstep]
      have hb := scan_content_bound v.content_line
        (⟨l.rest.drop k, l.pos + k, l.marked_end, l.result_symbol⟩ : TSLexer)
      simp only [List.length_drop] at hb
      omega
  · have hstep : tree_sitter_ipynb_external_scanner_scan v l =
        scan_content v.content_line l := by
      simp only [tree_sitter_ipynb_external_scanner_scan, if_neg hcond]
    rw [hstep]
    exact scan_content_bound v.content_line l

/-- C10: with only `CellEnd` requested, an input whose first character is
not `#` makes the scan fail with the lexer — in particular the cursor —
exactly as it started. -/
theorem c10_no_hash_no_advance (l : TSLexer) (h : l.lookahead ≠ '#'.toNat) :
    tree_sitter_ipynb_external_scanner_scan cell_end_only l = (false, l) := by
  have h' : ¬ l.lookahead = 35 := fun hl => h (by rw [hash_toNat]; exact hl)
  simp [tree_sitter_ipynb_external_scanner_scan, cell_end_only, h', scan_content]

/-- Witness for C10 over the input `abc`. -/
theorem c10_witness :
    tree_sitter_ipynb_external_scanner_scan cell_end_only (init_lexer ("abc".toList)) =
      (false, init_lexer ("abc".toList)) :=
  c10_no_hash_no_advance (init_lexer ("abc".toList)) (by decide)
